import Mathlib

/-!
Verification development for the strava-metrics dashboard core:
a shallow embedding (over exact rationals and integers) of the
resampling engine, the personal-best engine, the aggregation helpers,
the stream cache and the run-naming utility of src/strava_api.py,
src/stream_cache.py and src/app.py, together with proofs of the
specification's testable properties.

Numeric conventions: elapsed times are integers (the client stores
int(t)); distances are exact rationals standing for the float column
distance_mi.  Python's round(x, 2) is modelled by round-half-even on
the exact rational, and Python's int(x) by truncation toward zero.
-/

/-- One telemetry sample: (elapsed_seconds, distance_mi), one row of the
dataframe built by _parse_stream_to_dataframe. -/
structure Sample where
  elapsed_seconds : ℤ
  distance_mi : ℚ
deriving DecidableEq, Repr

instance : Inhabited Sample := ⟨⟨0, 0⟩⟩

/-- Round-half-even to an integer, the tie-breaking rule of Python's
builtin round(). -/
def roundHalfEven (q : ℚ) : ℤ :=
  let n := ⌊q⌋
  let frac := q - n
  if frac < 1/2 then n
  else if 1/2 < frac then n + 1
  else if n % 2 = 0 then n else n + 1

/-- Python's round(x, 2): scale by 100, round half to even, scale back. -/
def round2 (q : ℚ) : ℚ := (roundHalfEven (q * 100) : ℤ) / 100

/-- Python's int(x) for a rational: truncation toward zero (Int.div is
T-division). -/
def truncInt (q : ℚ) : ℤ := Int.tdiv q.num (q.den : ℤ)

/-! ## Time-axis resampling

get_time_and_distance_dataframes first sorts the series by
elapsed_seconds, buckets rows by second (elapsed_seconds // 1, the
identity on the integer column), keeps the last distance of each bucket,
sorts by second and applies forward_fill.  group_by emits one row per
occupied bucket only, and after agg(last) the column has no nulls, so
the forward_fill is the identity: the output is exactly the occupied
seconds in ascending order, each with the last distance observed at that
second. -/

/-- Insert an integer into a sorted list of integers, keeping order. -/
def insertSorted (x : ℤ) : List ℤ → List ℤ
  | [] => [x]
  | y :: ys => if x ≤ y then x :: y :: ys else y :: insertSorted x ys

/-- Sort a list of integers ascending (insertion sort). -/
def sortInts (l : List ℤ) : List ℤ := l.foldr insertSorted []

/-- The distinct seconds occupied by at least one sample (the group_by keys). -/
def occupiedSeconds (s : List Sample) : List ℤ :=
  (s.map (·.elapsed_seconds)).dedup

/-- The last sample's distance within one second bucket, in frame order
(polars agg(last) after a stable sort). -/
def lastDistAt (s : List Sample) (sec : ℤ) : ℚ :=
  ((s.filter (fun x => decide (x.elapsed_seconds = sec))).map (·.distance_mi)).getLastD 0

/-- The time-axis resampled table for one activity: one row per occupied
second, ascending, with the bucket's last distance. -/
def timeResample (s : List Sample) : List (ℤ × ℚ) :=
  (sortInts (occupiedSeconds s)).map (fun sec => (sec, lastDistAt s sec))

/-! ## Distance-axis resampling

mile_intervals = [i * 0.01 for i in range(0, int(max_distance * 100) + 1)]
joined as-of (strategy forward) against the series sorted by elapsed
time: each key takes the elapsed time of the first sample whose
distance_mi is at least the key, and a null when no sample reaches it. -/

/-- The maximum of the distance_mi column (polars .max() on a non-empty
frame; the empty case is unreachable behind the height-0 guard). -/
def maxDistance (s : List Sample) : ℚ :=
  match s.map (·.distance_mi) with
  | [] => 0
  | d :: ds => ds.foldl max d

/-- The 0.01-mile grid of distance keys for one activity. -/
def distKeys (s : List Sample) : List ℚ :=
  (List.range (truncInt (maxDistance s * 100) + 1).toNat).map (fun i : ℕ => (i : ℚ) * (1/100))

/-- Forward as-of join of one key against the series: the elapsed time of
the first sample whose distance reaches the key, none when no sample does. -/
def firstTimeAtOrBeyond (s : List Sample) (key : ℚ) : Option ℤ :=
  (s.find? (fun x => decide (key ≤ x.distance_mi))).map (·.elapsed_seconds)

/-- The distance-axis resampled table for one activity: every grid key with
its as-of elapsed time (an absent time is a null column entry). -/
def distResample (s : List Sample) : List (ℚ × Option ℤ) :=
  (distKeys s).map (fun k => (k, firstTimeAtOrBeyond s k))

/-- One activity's contribution to the time-indexed table: the loop skips
an activity whose series came back empty (ts.height == 0). -/
def timeContribution (s : List Sample) : List (ℤ × ℚ) :=
  if s = [] then [] else timeResample s

/-- One activity's contribution to the distance-indexed table, behind the
same height-0 guard. -/
def distContribution (s : List Sample) : List (ℚ × Option ℤ) :=
  if s = [] then [] else distResample s

/-! ## Personal-best engine

compute_personal_best_times scans every index pair i < j of each
activity's sorted series, rounds the covered distance to two decimals,
skips windows of rounded distance at most 0.01 mi, and folds the
surviving candidates into a dict keyed by rounded distance that keeps
the minimum elapsed time (first seen wins ties). -/

/-- The candidate of one window (i, j): rounded covered distance and
elapsed time between the two samples. -/
def window (s : List Sample) (i j : ℕ) : ℚ × ℤ :=
  (round2 ((s.getD j default).distance_mi - (s.getD i default).distance_mi),
   (s.getD j default).elapsed_seconds - (s.getD i default).elapsed_seconds)

/-- All windows (i, j) with i < j < length, in the loop's order. -/
def pairWindows (s : List Sample) : List (ℚ × ℤ) :=
  (List.range s.length).flatMap (fun i =>
    (List.range' (i + 1) (s.length - (i + 1))).map (fun j => window s i j))

/-- The candidates one activity contributes: all windows past the 0.01-mile
noise floor (series of fewer than two samples contribute nothing). -/
def activityCandidates (s : List Sample) : List (ℚ × ℤ) :=
  if s.length < 2 then []
  else (pairWindows s).filter (fun p => decide (1/100 < p.1))

/-- The candidates of a whole collection of activities, in activity order. -/
def allCandidates (acts : List (List Sample)) : List (ℚ × ℤ) :=
  (acts.map activityCandidates).flatten

/-- Minimum of two optional times (none is the empty dict entry). -/
def optMin : Option ℤ → Option ℤ → Option ℤ
  | none, b => b
  | some t, none => some t
  | some t, some u => some (min t u)

/-- Lookup in the PB dict, modelled as an association list with unique keys. -/
def lookupQ : List (ℚ × ℤ) → ℚ → Option ℤ
  | [], _ => none
  | p :: rest, d => if p.1 = d then some p.2 else lookupQ rest d

/-- One dict update of the PB fold: keep the stored time unless the new
candidate is strictly faster; a fresh key is appended. -/
def pbUpdate : List (ℚ × ℤ) → ℚ → ℤ → List (ℚ × ℤ)
  | [], d, t => [(d, t)]
  | p :: rest, d, t =>
    if p.1 = d then (if t < p.2 then (p.1, t) :: rest else p :: rest)
    else p :: pbUpdate rest d t

/-- The minimum candidate time recorded for one rounded distance. -/
def minTime : List (ℚ × ℤ) → ℚ → Option ℤ
  | [], _ => none
  | p :: rest, d => if p.1 = d then optMin (some p.2) (minTime rest d) else minTime rest d

/-- The global PB dict: every candidate of every activity folded through
pbUpdate, starting from the empty dict. -/
def pbTable (acts : List (List Sample)) : List (ℚ × ℤ) :=
  (allCandidates acts).foldl (fun tbl p => pbUpdate tbl p.1 p.2) []

/-- The keys of a PB dict. -/
def keysOf (tbl : List (ℚ × ℤ)) : List ℚ := tbl.map Prod.fst

/-! ## Aggregation / statistics (get_stats_summary) -/

/-- One activity summary row, restricted to the columns the statistics
read. -/
structure SummaryRow where
  distance_mi : ℚ
  duration_min : ℚ
  elevation_ft : ℚ
  pace_min_mi : ℚ
deriving DecidableEq, Repr

/-- The summary dict get_stats_summary returns; avg_distance is only
present on the non-empty branch. -/
structure StatsSummary where
  total_distance : ℚ
  total_duration : ℚ
  total_elevation : ℚ
  avg_pace : ℚ
  num_activities : ℕ
  avg_distance : Option ℚ
deriving DecidableEq, Repr

/-- Column sum (polars .sum(), a left fold from 0). -/
def colSum (xs : List ℚ) : ℚ := xs.foldl (· + ·) 0

/-- Column mean (polars .mean(): sum over count). -/
def colMean (xs : List ℚ) : ℚ := colSum xs / (xs.length : ℚ)

/-- get_stats_summary: all-zero on an empty frame, otherwise column sums,
the unweighted pace mean and the row count. -/
def get_stats_summary (df : List SummaryRow) : StatsSummary :=
  if df.length = 0 then ⟨0, 0, 0, 0, 0, none⟩
  else
    ⟨colSum (df.map (·.distance_mi)),
     colSum (df.map (·.duration_min)),
     colSum (df.map (·.elevation_ft)),
     colMean (df.map (·.pace_min_mi)),
     df.length,
     some (colMean (df.map (·.distance_mi)))⟩

/-! ## Stream cache (src/stream_cache.py) and the fetch path -/

/-- A raw stream payload as cached: the time and distance arrays exactly
as received (distances still in meters). -/
structure StreamPayload where
  time : List ℤ
  distance : List ℚ
deriving DecidableEq, Repr

instance : Inhabited StreamPayload := ⟨⟨[], []⟩⟩

/-- The in-memory cache state: streams_cache (a dict keyed by activity id)
and the failed_activities set. -/
structure CacheState where
  streams : List (ℤ × StreamPayload)
  failed : List ℤ
deriving DecidableEq, Repr

/-- mark_failed: add one id to the failed set (Python set.add). -/
def mark_failed (activity_id : ℤ) (failed_activities : List ℤ) : List ℤ :=
  if activity_id ∈ failed_activities then failed_activities
  else failed_activities ++ [activity_id]

/-- clear_failed: empty the failed set (Python set.clear). -/
def clear_failed (_failed_activities : List ℤ) : List ℤ := []

/-- get_cached_stream: dict .get on the streams cache. -/
def get_cached_stream (activity_id : ℤ) : List (ℤ × StreamPayload) → Option StreamPayload
  | [] => none
  | p :: rest => if p.1 = activity_id then some p.2 else get_cached_stream activity_id rest

/-- cache_stream: dict assignment on the streams cache. -/
def cache_stream (activity_id : ℤ) (stream_data : StreamPayload) :
    List (ℤ × StreamPayload) → List (ℤ × StreamPayload)
  | [] => [(activity_id, stream_data)]
  | p :: rest =>
    if p.1 = activity_id then (p.1, stream_data) :: rest
    else p :: cache_stream activity_id stream_data rest

/-- mark_failed lifted to the whole cache state, as the client call site
uses it (the streams dict is untouched). -/
def CacheState.markFailed (st : CacheState) (activity_id : ℤ) : CacheState :=
  ⟨st.streams, mark_failed activity_id st.failed⟩

/-- clear_failed lifted to the whole cache state. -/
def CacheState.clearFailed (st : CacheState) : CacheState :=
  ⟨st.streams, clear_failed st.failed⟩

/-- The outcome of one upstream streams request: a payload, or a raised
network/HTTP error. -/
inductive FetchOutcome
  | ok (payload : StreamPayload)
  | httpError
deriving DecidableEq, Repr

/-- What one get_activity_timeseries call produces: the parsed series, the
cache state afterwards, and whether the upstream API was contacted. -/
structure FetchResult where
  series : List Sample
  state : CacheState
  contactedUpstream : Bool
deriving DecidableEq, Repr

/-- Stream parsing (_parse_stream_to_dataframe): empty frame when either
stream is missing, otherwise zip time with distance and convert meters to
miles. -/
def parse_stream (p : StreamPayload) : List Sample :=
  if p.time = [] ∨ p.distance = [] then []
  else (p.time.zip p.distance).map (fun td => ⟨td.1, td.2 / (160934 / 100)⟩)

/-- get_activity_timeseries: failed ids short-circuit to an empty series
unless forced; a cache hit is parsed without a request; otherwise the
upstream is contacted, validated, cached on success and marked failed on
error or malformed data. -/
def get_activity_timeseries (st : CacheState) (upstream : FetchOutcome)
    (activity_id : ℤ) (force_refresh : Bool) : FetchResult :=
  if activity_id ∈ st.failed ∧ force_refresh = false then ⟨[], st, false⟩
  else if force_refresh = false ∧ (get_cached_stream activity_id st.streams).isSome then
    ⟨parse_stream ((get_cached_stream activity_id st.streams).getD default), st, false⟩
  else
    match upstream with
    | .httpError => ⟨[], st.markFailed activity_id, true⟩
    | .ok p =>
      if p.time = [] ∨ p.distance = [] ∨ p.time.length ≠ p.distance.length then
        ⟨[], st.markFailed activity_id, true⟩
      else
        ⟨parse_stream p, ⟨cache_stream activity_id p st.streams, st.failed⟩, true⟩

/-! ## Naming utility (generate_run_names in src/app.py) -/

/-- A display label: the bare ISO date string, or the date followed by a
number sign and an ordinal (both renderings are injective, so label
distinctness is faithfully captured). -/
inductive RunLabel
  | bare (day : ℤ)
  | indexed (day : ℤ) (ordinal : ℕ)
deriving DecidableEq, Repr

/-- One activity row as the naming utility reads it: the id, the calendar
date (the Date column cast to a date) and the time of day (together the
two form the full start datetime the rows are sorted by). -/
structure ActivityRow where
  activityId : ℤ
  day : ℤ
  timeOfDay : ℤ
deriving DecidableEq, Repr

/-- Datetime comparison: lexicographic on (day, time of day). -/
def dtLe (a b : ActivityRow) : Bool :=
  decide (a.day < b.day) || (decide (a.day = b.day) && decide (a.timeOfDay ≤ b.timeOfDay))

/-- Stable insertion of a row into a datetime-sorted list. -/
def insertRow (x : ActivityRow) : List ActivityRow → List ActivityRow
  | [] => [x]
  | y :: ys => if dtLe x y then x :: y :: ys else y :: insertRow x ys

/-- Stable sort of the rows by start datetime (the .sort("Date") pass). -/
def sortRows : List ActivityRow → List ActivityRow
  | [] => []
  | x :: xs => insertRow x (sortRows xs)

/-- How many activities fall on one calendar date (the group_by count). -/
def dayCount (rows : List ActivityRow) (d : ℤ) : ℕ :=
  (rows.filter (fun r => decide (r.day = d))).length

/-- date_index_map update: a missing date enters at 1, a present one is
incremented. -/
def bumpDay : List (ℤ × ℕ) → ℤ → List (ℤ × ℕ)
  | [], d => [(d, 1)]
  | (e, k) :: rest, d => if e = d then (e, k + 1) :: rest else (e, k) :: bumpDay rest d

/-- date_index_map lookup (0 for a missing date). -/
def lookupCount : List (ℤ × ℕ) → ℤ → ℕ
  | [], _ => 0
  | (e, k) :: rest, d => if e = d then k else lookupCount rest d

/-- The labelling loop over the date-sorted rows, carrying date_index_map:
a date with several activities gets "date #ordinal", a lone date the bare
date. -/
def genNamesAux (multi : ℤ → Bool) : List ActivityRow → List (ℤ × ℕ) → List (ℤ × RunLabel)
  | [], _ => []
  | r :: rs, m =>
    (r.activityId,
      if multi r.day then RunLabel.indexed r.day (lookupCount (bumpDay m r.day) r.day)
      else RunLabel.bare r.day)
      :: genNamesAux multi rs (bumpDay m r.day)

/-- generate_run_names: label every activity, walking the rows in ascending
start-datetime order. -/
def generate_run_names (rows : List ActivityRow) : List (ℤ × RunLabel) :=
  genNamesAux (fun d => decide (1 < dayCount rows d)) (sortRows rows) []

/-- Lookup of one activity's label in the produced mapping. -/
def lookupName : List (ℤ × RunLabel) → ℤ → Option RunLabel
  | [], _ => none
  | p :: rest, i => if p.1 = i then some p.2 else lookupName rest i

/-! ## General helper lemmas -/

theorem colSum_eq_sum (xs : List ℚ) : colSum xs = xs.sum := by
  have h : ∀ (l : List ℚ) (a : ℚ), l.foldl (· + ·) a = a + l.sum := by
    intro l
    induction l with
    | nil => intro a; simp
    | cons x t ih => intro a; simp only [List.foldl_cons, List.sum_cons, ih]; ring
  simpa [colSum] using h xs 0

/-! ## C2: the time axis emits only occupied seconds

The specification promises a row for every second between the first and
the last emitted second.  The pipeline's group_by creates rows only for
occupied seconds, and agg(last) leaves no nulls for forward_fill to
fill, so a gap in the input stays a gap in the output. -/

/-- C2: on the spec's own forward-fill example [(0, 0.0), (2, 1.0)] the
code produces two rows, seconds 0 and 2 — there is no row for second 1,
the row the claimed forward fill would have added. -/
theorem C2_time_axis_gap :
    timeContribution [⟨0, 0⟩, ⟨2, 1⟩] = [(0, 0), (2, 1)] ∧
    (∀ q : ℚ, ((1 : ℤ), q) ∉ timeContribution [⟨0, 0⟩, ⟨2, 1⟩]) ∧
    (timeContribution [⟨0, 0⟩, ⟨2, 1⟩]).map Prod.fst = [0, 2] := by
  have h : timeContribution [⟨0, 0⟩, ⟨2, 1⟩] = [(0, 0), (2, 1)] := by decide
  refine ⟨h, ?_, by rw [h]; rfl⟩
  intro q hq
  rw [h] at hq
  simp at hq

/-! ## C3: series with fewer than two samples -/

/-- C3 counterexample: a one-sample series is NOT skipped by the
resampling loops (only height == 0 is), so it contributes rows to both
axes, contradicting the claim that both outputs are empty below two
samples. -/
theorem C3_counterexample :
    timeContribution [⟨5, 1/50⟩] ≠ [] ∧ distContribution [⟨5, 1/50⟩] ≠ [] := by
  constructor
  · decide
  · have hne : ([⟨5, 1/50⟩] : List Sample) ≠ [] := by simp
    have h1 : maxDistance [⟨5, 1/50⟩] = 1/50 := by simp [maxDistance]
    have h2 : truncInt ((1/50 : ℚ) * 100) = 2 := by
      norm_num [truncInt]
    simp only [distContribution, if_neg hne, distResample, distKeys, h1, h2]
    decide

/-- C3 amended: only an empty series contributes nothing to the two
resampled axes; the personal-best engine alone skips all series shorter
than two samples, while a one-sample series still yields a time-axis row
(its own second and distance) and a non-empty distance-axis table
whenever its distance is non-negative. -/
theorem C3_short_series (s : List Sample) :
    (s = [] → timeContribution s = [] ∧ distContribution s = []) ∧
    (s.length < 2 → activityCandidates s = []) ∧
    (∀ x : Sample, s = [x] → timeContribution s = [(x.elapsed_seconds, x.distance_mi)]) ∧
    (∀ x : Sample, s = [x] → 0 ≤ x.distance_mi → distContribution s ≠ []) := by
  refine ⟨?_, ?_, ?_, ?_⟩
  · rintro rfl
    exact ⟨rfl, rfl⟩
  · intro h
    simp [activityCandidates, h]
  · rintro x rfl
    have hne : ([x] : List Sample) ≠ [] := by simp
    have hded : occupiedSeconds [x] = [x.elapsed_seconds] := by
      simp [occupiedSeconds, List.dedup_cons_of_not_mem]
    simp [timeContribution, timeResample, hded, sortInts, insertSorted, lastDistAt]
  · rintro x rfl hx
    have hmax : maxDistance [x] = x.distance_mi := by simp [maxDistance]
    have htr : 0 ≤ truncInt (x.distance_mi * 100) := by
      have hnum : 0 ≤ (x.distance_mi * 100).num := by
        rw [Rat.num_nonneg]
        positivity
      exact Int.tdiv_nonneg hnum (by positivity)
    have hne : ([x] : List Sample) ≠ [] := by simp
    have hlen : (distContribution [x]).length ≠ 0 := by
      simp only [distContribution, if_neg hne, distResample, distKeys, hmax,
        List.length_map, List.length_range]
      omega
    intro hcon
    rw [hcon] at hlen
    simp at hlen

/-! ## C9: summary statistics -/

/-- C9: get_stats_summary returns all-zero statistics with zero activity
count on an empty frame, and on a non-empty frame the column sums of
distance, duration and elevation, the unweighted mean of the pace column
and the row count. -/
theorem C9_stats_summary (df : List SummaryRow) :
    get_stats_summary [] = ⟨0, 0, 0, 0, 0, none⟩ ∧
    (df ≠ [] →
      (get_stats_summary df).total_distance = (df.map (·.distance_mi)).sum ∧
      (get_stats_summary df).total_duration = (df.map (·.duration_min)).sum ∧
      (get_stats_summary df).total_elevation = (df.map (·.elevation_ft)).sum ∧
      (get_stats_summary df).avg_pace = (df.map (·.pace_min_mi)).sum / (df.length : ℚ) ∧
      (get_stats_summary df).num_activities = df.length) := by
  constructor
  · rfl
  · intro hne
    have hlen : df.length ≠ 0 := by simpa [List.length_eq_zero] using hne
    simp [get_stats_summary, hlen, colMean, colSum_eq_sum]

/-- C9 witness: the statistics of a concrete one-row frame. -/
theorem C9_stats_summary_witness :
    (get_stats_summary [⟨1, 2, 3, 4⟩]).total_distance
      = ([(⟨1, 2, 3, 4⟩ : SummaryRow)].map (·.distance_mi)).sum :=
  ((C9_stats_summary [⟨1, 2, 3, 4⟩]).2 (by simp)).1

/-! ## C10: frame effects of mark_failed and clear_failed -/

/-- C10: mark_failed adds exactly the one id to the failed set, leaving
every other id's membership and the whole streams cache unchanged, and
clear_failed empties the failed set while leaving the streams cache
unchanged. -/
theorem C10_mark_clear_frame (st : CacheState) (activity_id : ℤ) :
    activity_id ∈ (st.markFailed activity_id).failed ∧
    (∀ j : ℤ, j ≠ activity_id →
      ((j ∈ (st.markFailed activity_id).failed) ↔ j ∈ st.failed)) ∧
    (st.markFailed activity_id).streams = st.streams ∧
    (∀ j : ℤ, j ∉ st.clearFailed.failed) ∧
    st.clearFailed.streams = st.streams := by
  refine ⟨?_, ?_, rfl, ?_, rfl⟩
  · simp only [CacheState.markFailed, mark_failed]
    split
    · assumption
    · simp
  · intro j hj
    simp only [CacheState.markFailed, mark_failed]
    split
    · exact Iff.rfl
    · simp [hj]
  · intro j
    simp [CacheState.clearFailed, clear_failed]

/-- C10 witness: a concrete state where a fresh id is marked failed and an
old member survives. -/
theorem C10_mark_clear_frame_witness :
    (5 : ℤ) ∈ ((⟨[], [5]⟩ : CacheState).markFailed 7).failed :=
  ((C10_mark_clear_frame ⟨[], [5]⟩ 7).2.1 5 (by decide)).mpr (by decide)

/-! ## Helper lemmas: column maxima and the as-of join -/

theorem foldl_max_eq_or_mem (d : ℚ) (ds : List ℚ) :
    ds.foldl max d = d ∨ ds.foldl max d ∈ ds := by
  induction ds generalizing d with
  | nil => exact Or.inl rfl
  | cons e es ih =>
    rw [List.foldl_cons]
    rcases ih (max d e) with h | h
    · rw [h]
      rcases max_choice d e with h' | h'
      · exact Or.inl h'
      · exact Or.inr (by rw [h']; exact List.mem_cons_self _ _)
    · exact Or.inr (List.mem_cons_of_mem _ h)

theorem le_foldl_max (d : ℚ) (ds : List ℚ) : d ≤ ds.foldl max d := by
  induction ds generalizing d with
  | nil => exact le_refl d
  | cons e es ih => exact le_trans (le_max_left d e) (ih (max d e))

theorem mem_le_foldl_max (d : ℚ) (ds : List ℚ) : ∀ y ∈ ds, y ≤ ds.foldl max d := by
  induction ds generalizing d with
  | nil => intro y hy; simp at hy
  | cons e es ih =>
    intro y hy
    rw [List.foldl_cons]
    rcases List.mem_cons.mp hy with rfl | hy
    · exact le_trans (le_max_right d y) (le_foldl_max _ _)
    · exact ih (max d e) y hy

theorem maxDistance_cons (a : Sample) (t : List Sample) :
    maxDistance (a :: t) = (t.map (·.distance_mi)).foldl max a.distance_mi := by
  simp [maxDistance]

theorem maxDistance_mem (s : List Sample) (h : s ≠ []) :
    ∃ x ∈ s, maxDistance s = x.distance_mi := by
  cases s with
  | nil => exact absurd rfl h
  | cons a t =>
    rcases foldl_max_eq_or_mem a.distance_mi (t.map (·.distance_mi)) with h' | h'
    · exact ⟨a, List.mem_cons_self _ _, by rw [maxDistance_cons, h']⟩
    · rcases List.mem_map.mp h' with ⟨x, hx, hx'⟩
      exact ⟨x, List.mem_cons_of_mem _ hx, by rw [maxDistance_cons, hx']⟩

theorem maxDistance_ge (s : List Sample) (x : Sample) (hx : x ∈ s) :
    x.distance_mi ≤ maxDistance s := by
  cases s with
  | nil => simp at hx
  | cons a t =>
    rw [maxDistance_cons]
    rcases List.mem_cons.mp hx with rfl | hx
    · exact le_foldl_max _ _
    · exact mem_le_foldl_max _ _ _ (List.mem_map_of_mem _ hx)

theorem truncInt_eq_floor (q : ℚ) (hq : 0 ≤ q) : truncInt q = ⌊q⌋ := by
  have hnum : 0 ≤ q.num := Rat.num_nonneg.mpr hq
  have hden : (0 : ℤ) ≤ (q.den : ℤ) := Int.natCast_nonneg _
  rw [truncInt, Int.tdiv_eq_ediv hnum hden, Rat.floor_def]

theorem find?_eq_some_split {α : Type} (p : α → Bool) :
    ∀ (l : List α) (x : α), l.find? p = some x →
      ∃ l1 l2, l = l1 ++ x :: l2 ∧ (∀ y ∈ l1, p y = false) := by
  intro l
  induction l with
  | nil => intro x h; simp [List.find?] at h
  | cons a t ih =>
    intro x h
    by_cases hpa : p a = true
    · rw [List.find?_cons_of_pos _ hpa] at h
      obtain rfl : a = x := by injection h
      exact ⟨[], t, rfl, by intro y hy; simp at hy⟩
    · rw [List.find?_cons_of_neg _ hpa] at h
      obtain ⟨l1, l2, heq, hl1⟩ := ih x h
      refine ⟨a :: l1, l2, by rw [heq, List.cons_append], ?_⟩
      intro y hy
      rcases List.mem_cons.mp hy with rfl | hy
      · exact Bool.not_eq_true _ ▸ eq_false_of_ne_true hpa
      · exact hl1 y hy

/-! ## C4: distance-axis key grid and as-of semantics -/

/-- C4: on a non-empty series with non-negative column maximum D the
distance axis generates exactly the keys i * 0.01 for i in
range(int(D*100)+1) (that is, floor(D*100)+1 many of them); every key is
answered by the elapsed time of the first original sample whose distance
reaches the key — in exact arithmetic every grid key is at most D, so no
row is ever absent — and D = 0 yields only the single key 0.00. -/
theorem C4_distance_axis (s : List Sample) (hne : s ≠ []) (hD : 0 ≤ maxDistance s) :
    (distResample s).length = (⌊maxDistance s * 100⌋ + 1).toNat ∧
    distKeys s
      = (List.range (⌊maxDistance s * 100⌋ + 1).toNat).map (fun i : ℕ => (i : ℚ) * (1/100)) ∧
    (∀ k ∈ distKeys s, ∃ l1 x l2, s = l1 ++ x :: l2 ∧ (∀ y ∈ l1, y.distance_mi < k) ∧
      k ≤ x.distance_mi ∧ firstTimeAtOrBeyond s k = some x.elapsed_seconds) ∧
    (maxDistance s = 0 → distKeys s = [0]) := by
  have htr : truncInt (maxDistance s * 100) = ⌊maxDistance s * 100⌋ :=
    truncInt_eq_floor _ (by positivity)
  refine ⟨?_, ?_, ?_, ?_⟩
  · simp [distResample, distKeys, htr]
  · simp [distKeys, htr]
  · intro k hk
    obtain ⟨i, hi, rfl⟩ := List.mem_map.mp hk
    have hirange := List.mem_range.mp hi
    rw [htr] at hirange
    have hile : (i : ℤ) ≤ ⌊maxDistance s * 100⌋ := by omega
    have hkD : (i : ℚ) * (1/100) ≤ maxDistance s := by
      have hfl : (⌊maxDistance s * 100⌋ : ℚ) ≤ maxDistance s * 100 := Int.floor_le _
      have hic : ((i : ℤ) : ℚ) ≤ (⌊maxDistance s * 100⌋ : ℚ) := by exact_mod_cast hile
      have : (i : ℚ) ≤ maxDistance s * 100 := by push_cast at hic ⊢; linarith
      linarith
    obtain ⟨x0, hx0, hmd⟩ := maxDistance_mem s hne
    have hex : ∃ y ∈ s, (fun x : Sample => decide ((i : ℚ) * (1/100) ≤ x.distance_mi)) y
        = true := ⟨x0, hx0, by simp only [decide_eq_true_eq]; rw [← hmd]; exact hkD⟩
    have hsome := List.find?_isSome.mpr hex
    obtain ⟨x, hfind⟩ := Option.isSome_iff_exists.mp hsome
    have hpx := List.find?_some hfind
    obtain ⟨l1, l2, hsplit, hl1⟩ := find?_eq_some_split _ s x hfind
    refine ⟨l1, x, l2, hsplit, ?_, by simpa using hpx, ?_⟩
    · intro y hy
      have := hl1 y hy
      simpa [not_le] using this
    · simp only [firstTimeAtOrBeyond]
      rw [hfind]
      rfl
  · intro h0
    have h0' : truncInt (maxDistance s * 100) = 0 := by
      rw [h0, zero_mul]
      decide
    simp only [distKeys, h0']
    norm_num
    have hr1 : List.range 1 = [0] := rfl
    rw [hr1]
    norm_num

/-- C4 witness: the grid of a concrete two-sample run reaching half a mile
has floor(0.5*100)+1 = 51 rows. -/
theorem C4_distance_axis_witness :
    (distResample [⟨0, 0⟩, ⟨10, 1/2⟩]).length
      = (⌊maxDistance [⟨0, 0⟩, ⟨10, 1/2⟩] * 100⌋ + 1).toNat :=
  (C4_distance_axis [⟨0, 0⟩, ⟨10, 1/2⟩] (by simp)
    (by rw [maxDistance_cons]; simp)).1

/-! ## C7: the fetch path of get_activity_timeseries -/

/-- C7 counterexample: with an empty cache and the id not failed, a
default-mode call does not return an empty series without contacting the
upstream source — it contacts the API and returns the parsed stream. -/
theorem C7_cache_miss_fetches :
    (get_activity_timeseries ⟨[], []⟩ (.ok ⟨[0, 10], [0, 160934/100]⟩) 42 false).series ≠ [] ∧
    (get_activity_timeseries ⟨[], []⟩
      (.ok ⟨[0, 10], [0, 160934/100]⟩) 42 false).contactedUpstream = true := by
  constructor <;>
    simp [get_activity_timeseries, get_cached_stream, parse_stream]

theorem contactedUpstream_ite (c : Prop) [Decidable c] (a b : FetchResult)
    (ha : a.contactedUpstream = true) (hb : b.contactedUpstream = true) :
    (if c then a else b).contactedUpstream = true := by
  split
  · exact ha
  · exact hb

/-- C7 amended: a failed id short-circuits to an empty series with the
state untouched and no upstream contact unless the call is forced; a
cache hit for a non-failed id is parsed without upstream contact; a cache
miss for a non-failed id contacts the upstream (it is fetched, not
returned empty); a forced call on a failed id retries, and a default-mode
call contacts the upstream only for non-failed ids. -/
theorem C7_fetch_paths (st : CacheState) (u : FetchOutcome) (activity_id : ℤ) :
    (activity_id ∈ st.failed →
      get_activity_timeseries st u activity_id false = ⟨[], st, false⟩) ∧
    (activity_id ∉ st.failed → ∀ p : StreamPayload,
      get_cached_stream activity_id st.streams = some p →
      get_activity_timeseries st u activity_id false = ⟨parse_stream p, st, false⟩) ∧
    (activity_id ∉ st.failed → get_cached_stream activity_id st.streams = none →
      (get_activity_timeseries st u activity_id false).contactedUpstream = true) ∧
    (activity_id ∈ st.failed →
      (get_activity_timeseries st u activity_id true).contactedUpstream = true) ∧
    ((get_activity_timeseries st u activity_id false).contactedUpstream = true →
      activity_id ∉ st.failed) := by
  refine ⟨?_, ?_, ?_, ?_, ?_⟩
  · intro h
    rw [get_activity_timeseries.eq_def, if_pos ⟨h, rfl⟩]
  · intro h p hp
    rw [get_activity_timeseries.eq_def, if_neg (fun hc => h hc.1),
      if_pos ⟨rfl, by rw [hp]; rfl⟩, hp]
    rfl
  · intro h hp
    rw [get_activity_timeseries.eq_def, if_neg (fun hc => h hc.1),
      if_neg (fun hc => by rw [hp] at hc; exact Bool.false_ne_true hc.2)]
    cases u with
    | httpError => rfl
    | ok p => exact contactedUpstream_ite _ _ _ rfl rfl
  · intro h
    rw [get_activity_timeseries.eq_def, if_neg (fun hc => Bool.noConfusion hc.2),
      if_neg (fun hc => Bool.noConfusion hc.1)]
    cases u with
    | httpError => rfl
    | ok p => exact contactedUpstream_ite _ _ _ rfl rfl
  · intro hcon h
    rw [get_activity_timeseries.eq_def, if_pos ⟨h, rfl⟩] at hcon
    exact Bool.false_ne_true hcon

/-- C7 witness: a concrete failed id short-circuits without touching state
or network. -/
theorem C7_fetch_paths_witness :
    get_activity_timeseries ⟨[], [42]⟩ .httpError 42 false = ⟨[], ⟨[], [42]⟩, false⟩ :=
  (C7_fetch_paths ⟨[], [42]⟩ .httpError 42).1 (by decide)

/-! ## Helper lemmas: the PB dict fold -/

theorem optMin_none_right (a : Option ℤ) : optMin a none = a := by
  cases a <;> rfl

theorem optMin_comm (a b : Option ℤ) : optMin a b = optMin b a := by
  cases a <;> cases b <;> simp [optMin, min_comm]

theorem optMin_assoc (a b c : Option ℤ) : optMin (optMin a b) c = optMin a (optMin b c) := by
  cases a <;> cases b <;> cases c <;> simp [optMin, min_assoc]

theorem optMin_left_comm (a b c : Option ℤ) :
    optMin a (optMin b c) = optMin b (optMin a c) := by
  rw [← optMin_assoc, optMin_comm a b, optMin_assoc]

theorem lookupQ_pbUpdate_self (tbl : List (ℚ × ℤ)) (d : ℚ) (t : ℤ) :
    lookupQ (pbUpdate tbl d t) d = optMin (some t) (lookupQ tbl d) := by
  induction tbl with
  | nil => simp [pbUpdate, lookupQ, optMin]
  | cons p rest ih =>
    by_cases h : p.1 = d
    · simp only [pbUpdate, if_pos h]
      by_cases ht : t < p.2
      · rw [if_pos ht]
        simp [lookupQ, h, optMin, min_eq_left (le_of_lt ht)]
      · rw [if_neg ht]
        simp [lookupQ, h, optMin, min_eq_right (le_of_not_lt ht)]
    · simp only [pbUpdate, if_neg h]
      simp [lookupQ, h, ih]

theorem lookupQ_pbUpdate_ne (tbl : List (ℚ × ℤ)) (d e : ℚ) (t : ℤ) (hne : e ≠ d) :
    lookupQ (pbUpdate tbl e t) d = lookupQ tbl d := by
  induction tbl with
  | nil => simp [pbUpdate, lookupQ, hne]
  | cons p rest ih =>
    by_cases h : p.1 = e
    · simp only [pbUpdate, if_pos h]
      by_cases ht : t < p.2
      · rw [if_pos ht]
        have hpd : p.1 ≠ d := by rw [h]; exact hne
        simp [lookupQ, hpd]
      · rw [if_neg ht]
    · simp only [pbUpdate, if_neg h]
      simp [lookupQ, ih]

theorem lookupQ_foldl (cs : List (ℚ × ℤ)) :
    ∀ (tbl : List (ℚ × ℤ)) (d : ℚ),
      lookupQ (cs.foldl (fun tb p => pbUpdate tb p.1 p.2) tbl) d
        = optMin (lookupQ tbl d) (minTime cs d) := by
  induction cs with
  | nil => intro tbl d; simp [minTime, optMin_none_right]
  | cons c cs ih =>
    intro tbl d
    rw [List.foldl_cons, ih]
    by_cases h : c.1 = d
    · subst h
      rw [lookupQ_pbUpdate_self]
      simp only [minTime, eq_self_iff_true, if_true]
      rw [optMin_assoc, optMin_left_comm]
    · rw [lookupQ_pbUpdate_ne _ _ _ _ h]
      simp only [minTime, if_neg h]

theorem pbTable_lookup (acts : List (List Sample)) (d : ℚ) :
    lookupQ (pbTable acts) d = minTime (allCandidates acts) d := by
  rw [pbTable, lookupQ_foldl]
  rfl

theorem keysOf_pbUpdate (tbl : List (ℚ × ℤ)) (d : ℚ) (t : ℤ) :
    keysOf (pbUpdate tbl d t)
      = if d ∈ keysOf tbl then keysOf tbl else keysOf tbl ++ [d] := by
  induction tbl with
  | nil => simp [pbUpdate, keysOf]
  | cons p rest ih =>
    by_cases h : p.1 = d
    · have hmem : d ∈ keysOf (p :: rest) := by simp [keysOf, h.symm]
      rw [if_pos hmem]
      simp only [pbUpdate, if_pos h]
      by_cases ht : t < p.2
      · rw [if_pos ht]; simp [keysOf]
      · rw [if_neg ht]
    · simp only [pbUpdate, if_neg h, keysOf, List.map_cons]
      simp only [keysOf] at ih
      rw [ih]
      by_cases hd : d ∈ List.map Prod.fst rest
      · rw [if_pos hd, if_pos (List.mem_cons_of_mem _ hd)]
      · rw [if_neg hd, if_neg ?_]
        · simp
        · intro hcon
          rcases List.mem_cons.mp hcon with he | he
          · exact h he.symm
          · exact hd he

theorem keysOf_pbUpdate_nodup (tbl : List (ℚ × ℤ)) (d : ℚ) (t : ℤ)
    (h : (keysOf tbl).Nodup) : (keysOf (pbUpdate tbl d t)).Nodup := by
  rw [keysOf_pbUpdate]
  split
  · exact h
  · next hd =>
    refine List.Nodup.append h (List.nodup_singleton d) ?_
    intro x hx hx'
    simp only [List.mem_singleton] at hx'
    subst hx'
    exact hd hx

theorem pbTable_keys_nodup (acts : List (List Sample)) : (keysOf (pbTable acts)).Nodup := by
  rw [pbTable]
  have h : ∀ (cs tbl : List (ℚ × ℤ)), (keysOf tbl).Nodup →
      (keysOf (cs.foldl (fun tb p => pbUpdate tb p.1 p.2) tbl)).Nodup := by
    intro cs
    induction cs with
    | nil => intro tbl h; exact h
    | cons c cs ih =>
      intro tbl h
      rw [List.foldl_cons]
      exact ih _ (keysOf_pbUpdate_nodup _ _ _ h)
  exact h _ [] (by simp [keysOf])

theorem lookupQ_isSome_iff (tbl : List (ℚ × ℤ)) (d : ℚ) :
    (lookupQ tbl d).isSome = true ↔ d ∈ keysOf tbl := by
  induction tbl with
  | nil => simp [lookupQ, keysOf]
  | cons p rest ih =>
    by_cases h : p.1 = d
    · simp [lookupQ, h, keysOf]
    · have h' : d ≠ p.1 := fun he => h he.symm
      simp [lookupQ, h, keysOf, ih, h']

theorem minTime_attained (d : ℚ) :
    ∀ (cs : List (ℚ × ℤ)) (t : ℤ), minTime cs d = some t → ∃ p ∈ cs, p.1 = d ∧ p.2 = t := by
  intro cs
  induction cs with
  | nil => intro t h; simp [minTime] at h
  | cons c cs ih =>
    intro t h
    by_cases hc : c.1 = d
    · rw [minTime, if_pos hc] at h
      cases hm : minTime cs d with
      | none =>
        rw [hm] at h
        simp only [optMin, Option.some.injEq] at h
        exact ⟨c, List.mem_cons_self _ _, hc, h⟩
      | some u =>
        rw [hm] at h
        simp only [optMin, Option.some.injEq] at h
        rcases min_choice c.2 u with hmin | hmin
        · exact ⟨c, List.mem_cons_self _ _, hc, by rw [← h, hmin]⟩
        · obtain ⟨p, hp, hpd, hpt⟩ := ih u hm
          exact ⟨p, List.mem_cons_of_mem _ hp, hpd, by rw [hpt, ← h, hmin]⟩
    · rw [minTime, if_neg hc] at h
      obtain ⟨p, hp, hpd, hpt⟩ := ih t h
      exact ⟨p, List.mem_cons_of_mem _ hp, hpd, hpt⟩

theorem minTime_le (d : ℚ) :
    ∀ (cs : List (ℚ × ℤ)) (p : ℚ × ℤ), p ∈ cs → p.1 = d →
      ∃ t, minTime cs d = some t ∧ t ≤ p.2 := by
  intro cs
  induction cs with
  | nil => intro p hp; intro _; simp at hp
  | cons c cs ih =>
    intro p hp hpd
    rcases List.mem_cons.mp hp with rfl | hp
    · rw [minTime, if_pos hpd]
      cases hm : minTime cs d with
      | none => exact ⟨p.2, rfl, le_refl _⟩
      | some u => exact ⟨min p.2 u, rfl, min_le_left _ _⟩
    · by_cases hc : c.1 = d
      · rw [minTime, if_pos hc]
        obtain ⟨t, ht, hle⟩ := ih p hp hpd
        rw [ht]
        exact ⟨min c.2 t, rfl, le_trans (min_le_right _ _) hle⟩
      · rw [minTime, if_neg hc]
        exact ih p hp hpd

theorem minTime_cons (x : ℚ × ℤ) (rest : List (ℚ × ℤ)) (d : ℚ) :
    minTime (x :: rest) d
      = if x.1 = d then optMin (some x.2) (minTime rest d) else minTime rest d := rfl

theorem minTime_append (d : ℚ) (xs ys : List (ℚ × ℤ)) :
    minTime (xs ++ ys) d = optMin (minTime xs d) (minTime ys d) := by
  induction xs with
  | nil => simp [minTime, optMin]
  | cons x xs ih =>
    rw [List.cons_append, minTime_cons, minTime_cons]
    by_cases hx : x.1 = d
    · rw [if_pos hx, if_pos hx, ih, optMin_assoc]
    · rw [if_neg hx, if_neg hx, ih]

theorem allCandidates_append (l1 l2 : List (List Sample)) :
    allCandidates (l1 ++ l2) = allCandidates l1 ++ allCandidates l2 := by
  simp [allCandidates]

theorem allCandidates_cons (a : List Sample) (l : List (List Sample)) :
    allCandidates (a :: l) = activityCandidates a ++ allCandidates l := by
  simp [allCandidates]

theorem mem_allCandidates (p : ℚ × ℤ) (acts : List (List Sample)) :
    p ∈ allCandidates acts ↔ ∃ s ∈ acts, p ∈ activityCandidates s := by
  simp [allCandidates, List.mem_flatten]

theorem mem_pairWindows (s : List Sample) (p : ℚ × ℤ) :
    p ∈ pairWindows s ↔ ∃ i j, i < j ∧ j < s.length ∧ p = window s i j := by
  simp only [pairWindows, List.mem_flatMap, List.mem_map, List.mem_range]
  constructor
  · rintro ⟨i, hi, j, hj, rfl⟩
    have hj' := List.mem_range'_1.mp hj
    exact ⟨i, j, by omega, by omega, rfl⟩
  · rintro ⟨i, j, hij, hjlen, rfl⟩
    exact ⟨i, by omega, j, List.mem_range'_1.mpr ⟨by omega, by omega⟩, rfl⟩

/-! ## C1: the PB table keeps the global minimum per rounded distance -/

/-- C1: the PB table has pairwise distinct keys; looking up any rounded
distance yields exactly the minimum candidate time over all (activity,
window) pairs whose covered distance rounds to that key (so a distance
achieved in two activities keeps the smaller time); a key is present
exactly when some window produced it; and removing an activity none of
whose candidates beats the rest of the collection leaves every lookup of
the table unchanged. -/
theorem C1_pb_table (acts : List (List Sample)) :
    (keysOf (pbTable acts)).Nodup ∧
    (∀ d : ℚ, lookupQ (pbTable acts) d = minTime (allCandidates acts) d) ∧
    (∀ d : ℚ, d ∈ keysOf (pbTable acts) ↔ ∃ p ∈ allCandidates acts, p.1 = d) ∧
    (∀ (l1 l2 : List (List Sample)) (a : List Sample), acts = l1 ++ a :: l2 →
      (∀ p ∈ activityCandidates a,
        ∃ q ∈ allCandidates (l1 ++ l2), q.1 = p.1 ∧ q.2 ≤ p.2) →
      ∀ d : ℚ, lookupQ (pbTable (l1 ++ l2)) d = lookupQ (pbTable acts) d) := by
  refine ⟨pbTable_keys_nodup acts, fun d => pbTable_lookup acts d, ?_, ?_⟩
  · intro d
    rw [← lookupQ_isSome_iff, pbTable_lookup]
    constructor
    · intro hs
      obtain ⟨t, ht⟩ := Option.isSome_iff_exists.mp hs
      obtain ⟨p, hp, hpd, _⟩ := minTime_attained d _ t ht
      exact ⟨p, hp, hpd⟩
    · rintro ⟨p, hp, hpd⟩
      obtain ⟨t, ht, _⟩ := minTime_le d _ p hp hpd
      rw [ht]
      rfl
  · intro l1 l2 a hsplit hloser d
    have e1 : minTime (allCandidates (l1 ++ l2)) d
        = optMin (minTime (allCandidates l1) d) (minTime (allCandidates l2) d) := by
      rw [allCandidates_append, minTime_append]
    have e2 : minTime (allCandidates (l1 ++ a :: l2)) d
        = optMin (minTime (allCandidates l1) d)
            (optMin (minTime (activityCandidates a) d) (minTime (allCandidates l2) d)) := by
      rw [allCandidates_append, allCandidates_cons, minTime_append, minTime_append]
    rw [pbTable_lookup, pbTable_lookup, hsplit, e1, e2]
    cases hMa : minTime (activityCandidates a) d with
    | none => rfl
    | some t =>
      obtain ⟨p, hp, hpd, hpt⟩ := minTime_attained d _ t hMa
      obtain ⟨q, hq, hqd, hqle⟩ := hloser p hp
      obtain ⟨u, hu, hule⟩ := minTime_le d (allCandidates (l1 ++ l2)) q hq (by rw [hqd, hpd])
      rw [e1] at hu
      rw [optMin_left_comm, hu]
      have hut : u ≤ t := le_trans hule (by rw [hpt] at hqle; exact hqle)
      cases hv : optMin (minTime (allCandidates l1) d) (minTime (allCandidates l2) d) with
      | none => rw [hv] at hu; exact absurd hu (by simp)
      | some v =>
        rw [hv] at hu
        simp only [Option.some.injEq] at hu
        subst hu
        simp [optMin, min_eq_right hut]

/-- C1 witness: removing an activity with no candidates (an empty series)
leaves the table's lookups unchanged on a concrete collection. -/
theorem C1_pb_table_witness :
    lookupQ (pbTable ([] ++ [[⟨0, 0⟩, ⟨90, 1⟩]])) 1
      = lookupQ (pbTable [[], [⟨0, 0⟩, ⟨90, 1⟩]]) 1 :=
  (C1_pb_table [[], [⟨0, 0⟩, ⟨90, 1⟩]]).2.2.2 [] [[⟨0, 0⟩, ⟨90, 1⟩]] [] rfl
    (by intro p hp; simp [activityCandidates] at hp) 1

/-! ## C5: the noise floor on window candidates -/

/-- C5: a window pair is a recorded candidate exactly when its rounded
covered distance is strictly greater than 0.01; in particular a window
covering exactly 0.01 miles is never recorded, and every key of the
resulting PB table exceeds 0.01. -/
theorem C5_noise_floor (s : List Sample) (acts : List (List Sample)) :
    (∀ p : ℚ × ℤ, p ∈ activityCandidates s ↔
      ((∃ i j, i < j ∧ j < s.length ∧ p = window s i j) ∧ 1/100 < p.1)) ∧
    (∀ t : ℤ, ((1 : ℚ)/100, t) ∉ activityCandidates s) ∧
    (∀ d ∈ keysOf (pbTable acts), (1 : ℚ)/100 < d) := by
  refine ⟨?_, ?_, ?_⟩
  · intro p
    by_cases hlen : s.length < 2
    · constructor
      · intro hp
        rw [activityCandidates, if_pos hlen] at hp
        simp at hp
      · rintro ⟨⟨i, j, hij, hjlen, rfl⟩, _⟩
        omega
    · rw [activityCandidates, if_neg hlen, List.mem_filter, mem_pairWindows]
      simp only [decide_eq_true_eq]
  · intro t hmem
    rw [activityCandidates] at hmem
    split at hmem
    · simp at hmem
    · have := (List.mem_filter.mp hmem).2
      simp only [decide_eq_true_eq] at this
      exact lt_irrefl _ this
  · intro d hd
    rw [← lookupQ_isSome_iff, pbTable_lookup] at hd
    obtain ⟨t, ht⟩ := Option.isSome_iff_exists.mp hd
    obtain ⟨p, hp, hpd, _⟩ := minTime_attained d _ t ht
    obtain ⟨s', _, hps'⟩ := (mem_allCandidates p acts).mp hp
    rw [activityCandidates] at hps'
    split at hps'
    · simp at hps'
    · have := (List.mem_filter.mp hps').2
      simp only [decide_eq_true_eq] at this
      rw [← hpd]
      exact this

/-! ## Helper lemmas: the naming utility -/

theorem lookupCount_bumpDay_self (m : List (ℤ × ℕ)) (d : ℤ) :
    lookupCount (bumpDay m d) d = lookupCount m d + 1 := by
  induction m with
  | nil => simp [bumpDay, lookupCount]
  | cons p rest ih =>
    obtain ⟨e, k⟩ := p
    by_cases h : e = d
    · simp [bumpDay, lookupCount, h]
    · simp [bumpDay, lookupCount, h, ih]

theorem lookupCount_bumpDay_ne (m : List (ℤ × ℕ)) (d e : ℤ) (h : e ≠ d) :
    lookupCount (bumpDay m e) d = lookupCount m d := by
  have hde : ¬(d = e) := fun hh => h hh.symm
  induction m with
  | nil => simp [bumpDay, lookupCount, h]
  | cons p rest ih =>
    obtain ⟨a, k⟩ := p
    by_cases ha : a = e
    · subst ha
      simp [bumpDay, lookupCount, h]
    · by_cases had : a = d
      · subst had
        simp [bumpDay, lookupCount, ha, hde]
      · simp [bumpDay, lookupCount, ha, had, ih]

theorem genNamesAux_lookup (multi : ℤ → Bool) :
    ∀ (l1 : List ActivityRow) (r : ActivityRow) (l2 : List ActivityRow) (m : List (ℤ × ℕ)),
      r.activityId ∉ (l1.map (·.activityId)) →
      lookupName (genNamesAux multi (l1 ++ r :: l2) m) r.activityId
        = some (if multi r.day
            then RunLabel.indexed r.day (lookupCount m r.day + dayCount l1 r.day + 1)
            else RunLabel.bare r.day) := by
  intro l1
  induction l1 with
  | nil =>
    intro r l2 m _
    simp only [List.nil_append, genNamesAux, lookupName, if_pos rfl]
    rw [lookupCount_bumpDay_self]
    simp [dayCount]
  | cons x l1 ih =>
    intro r l2 m hid
    have hxr : x.activityId ≠ r.activityId := by
      intro he
      exact hid (List.mem_map.mpr ⟨x, List.mem_cons_self _ _, he⟩)
    have hid' : r.activityId ∉ l1.map (·.activityId) := by
      intro hc
      exact hid (by simp only [List.map_cons, List.mem_cons]; exact Or.inr hc)
    simp only [List.cons_append, genNamesAux, lookupName]
    rw [if_neg hxr]
    refine (ih r l2 (bumpDay m x.day) hid').trans ?_
    by_cases hday : x.day = r.day
    · rw [hday, lookupCount_bumpDay_self]
      have hc : dayCount (x :: l1) r.day = dayCount l1 r.day + 1 := by
        simp [dayCount, List.filter_cons_of_pos, hday]
      rw [hc]
      have harith : lookupCount m r.day + 1 + dayCount l1 r.day + 1
          = lookupCount m r.day + (dayCount l1 r.day + 1) + 1 := by omega
      rw [harith]
    · rw [lookupCount_bumpDay_ne m r.day x.day hday]
      have hc : dayCount (x :: l1) r.day = dayCount l1 r.day := by
        simp [dayCount, List.filter_cons_of_neg, hday]
      rw [hc]

theorem filter_split_of_split {α : Type} (p : α → Bool) :
    ∀ (l pre post : List α) (e : α), l.filter p = pre ++ e :: post →
      ∃ l1 l2, l = l1 ++ e :: l2 ∧ (l1.filter p).length = pre.length ∧ p e = true := by
  intro l
  induction l with
  | nil =>
    intro pre post e h
    rw [List.filter_nil] at h
    have hlen := congrArg List.length h
    simp at hlen
    exact absurd hlen (by omega)
  | cons a t ih =>
    intro pre post e h
    by_cases hpa : p a = true
    · rw [List.filter_cons_of_pos hpa] at h
      cases pre with
      | nil =>
        simp only [List.nil_append] at h
        injection h with h1 h2
        subst h1
        exact ⟨[], t, rfl, rfl, hpa⟩
      | cons b pre' =>
        rw [List.cons_append] at h
        injection h with h1 h2
        obtain ⟨l1, l2, rfl, hlen, hpe⟩ := ih pre' post e h2
        refine ⟨a :: l1, l2, rfl, ?_, hpe⟩
        rw [List.filter_cons_of_pos hpa]
        simp [hlen]
    · rw [List.filter_cons_of_neg hpa] at h
      obtain ⟨l1, l2, rfl, hlen, hpe⟩ := ih pre post e h
      refine ⟨a :: l1, l2, rfl, ?_, hpe⟩
      rw [List.filter_cons_of_neg hpa]
      exact hlen

theorem mem_insertRow (x y : ActivityRow) (l : List ActivityRow) :
    y ∈ insertRow x l ↔ y = x ∨ y ∈ l := by
  induction l with
  | nil => simp [insertRow]
  | cons a t ih =>
    simp only [insertRow]
    by_cases h : dtLe x a = true
    · rw [if_pos h]
      simp
    · rw [if_neg h]
      simp only [List.mem_cons, ih]
      tauto

theorem insertRow_perm (x : ActivityRow) (l : List ActivityRow) :
    (insertRow x l).Perm (x :: l) := by
  induction l with
  | nil => exact List.Perm.refl _
  | cons y ys ih =>
    simp only [insertRow]
    by_cases h : dtLe x y = true
    · rw [if_pos h]
    · rw [if_neg h]
      exact (ih.cons y).trans (List.Perm.swap x y ys)

theorem sortRows_perm (l : List ActivityRow) : (sortRows l).Perm l := by
  induction l with
  | nil => exact List.Perm.refl _
  | cons x xs ih => exact (insertRow_perm x (sortRows xs)).trans (ih.cons x)

theorem dtLe_total (a b : ActivityRow) : dtLe a b = true ∨ dtLe b a = true := by
  simp only [dtLe, Bool.or_eq_true, Bool.and_eq_true, decide_eq_true_eq]
  rcases lt_trichotomy a.day b.day with h | h | h
  · exact Or.inl (Or.inl h)
  · rcases le_total a.timeOfDay b.timeOfDay with ht | ht
    · exact Or.inl (Or.inr ⟨h, ht⟩)
    · exact Or.inr (Or.inr ⟨h.symm, ht⟩)
  · exact Or.inr (Or.inl h)

theorem dtLe_trans (a b c : ActivityRow) (h1 : dtLe a b = true) (h2 : dtLe b c = true) :
    dtLe a c = true := by
  simp only [dtLe, Bool.or_eq_true, Bool.and_eq_true, decide_eq_true_eq] at h1 h2 ⊢
  rcases h1 with h1 | ⟨h1d, h1t⟩ <;> rcases h2 with h2 | ⟨h2d, h2t⟩
  · exact Or.inl (lt_trans h1 h2)
  · exact Or.inl (by rwa [← h2d])
  · exact Or.inl (by rwa [h1d])
  · exact Or.inr ⟨h1d.trans h2d, le_trans h1t h2t⟩

theorem insertRow_sorted (x : ActivityRow) (l : List ActivityRow)
    (h : l.Pairwise (fun a b => dtLe a b = true)) :
    (insertRow x l).Pairwise (fun a b => dtLe a b = true) := by
  induction l with
  | nil => simp [insertRow]
  | cons y ys ih =>
    simp only [insertRow]
    by_cases hxy : dtLe x y = true
    · rw [if_pos hxy]
      refine List.Pairwise.cons ?_ h
      intro z hz
      rcases List.mem_cons.mp hz with rfl | hz
      · exact hxy
      · exact dtLe_trans x y z hxy (List.rel_of_pairwise_cons h hz)
    · rw [if_neg hxy]
      have hyx : dtLe y x = true := (dtLe_total x y).resolve_left hxy
      refine List.Pairwise.cons ?_ (ih (List.Pairwise.of_cons h))
      intro z hz
      rcases (mem_insertRow x z ys).mp hz with rfl | hz
      · exact hyx
      · exact List.rel_of_pairwise_cons h hz

theorem sortRows_sorted (l : List ActivityRow) :
    (sortRows l).Pairwise (fun a b => dtLe a b = true) := by
  induction l with
  | nil => simp [sortRows]
  | cons x xs ih => exact insertRow_sorted x _ ih

/-! ## C8: date labels with ordinals for same-day activities -/

/-- C8: with pairwise distinct activity ids, the naming utility walks the
rows in ascending start-datetime order; an activity alone on its calendar
date is labelled with the bare date, and on a date carrying several
activities the activity preceded by exactly pre-many same-day activities
in the sorted order receives the ordinal pre+1 — ordinals run 1, 2, ... in
ascending start-time order and are distinct on each date. -/
theorem C8_run_names (rows : List ActivityRow)
    (hids : (rows.map (·.activityId)).Nodup) :
    (sortRows rows).Pairwise (fun a b => dtLe a b = true) ∧
    (∀ r ∈ rows, dayCount rows r.day = 1 →
      lookupName (generate_run_names rows) r.activityId = some (.bare r.day)) ∧
    (∀ d : ℤ, 1 < dayCount rows d →
      ∀ pre e post,
        (sortRows rows).filter (fun x => decide (x.day = d)) = pre ++ e :: post →
        lookupName (generate_run_names rows) e.activityId
          = some (.indexed d (pre.length + 1))) := by
  have hperm := sortRows_perm rows
  have hids' : ((sortRows rows).map (·.activityId)).Nodup :=
    ((hperm.map (·.activityId)).nodup_iff).mpr hids
  refine ⟨sortRows_sorted rows, ?_, ?_⟩
  · intro r hr hone
    have hrs : r ∈ sortRows rows := hperm.mem_iff.mpr hr
    obtain ⟨l1, l2, hsplit⟩ := List.append_of_mem hrs
    have hnotin : r.activityId ∉ l1.map (·.activityId) := by
      rw [hsplit] at hids'
      simp only [List.map_append, List.map_cons] at hids'
      intro hcon
      exact (List.nodup_append.mp hids').2.2 hcon (List.mem_cons_self _ _)
    have hlk := genNamesAux_lookup (fun d' => decide (1 < dayCount rows d')) l1 r l2 [] hnotin
    rw [generate_run_names, hsplit, hlk]
    have hm : decide (1 < dayCount rows r.day) = false := by simp [hone]
    simp only [hm, Bool.false_eq_true, if_false]
  · intro d hd pre e post hsplit
    obtain ⟨l1, l2, hrows, hlen, hpe⟩ :=
      filter_split_of_split (fun x => decide (x.day = d)) (sortRows rows) pre post e hsplit
    have hed : e.day = d := by simpa using hpe
    have hnotin : e.activityId ∉ l1.map (·.activityId) := by
      rw [hrows] at hids'
      simp only [List.map_append, List.map_cons] at hids'
      intro hcon
      exact (List.nodup_append.mp hids').2.2 hcon (List.mem_cons_self _ _)
    have hlk := genNamesAux_lookup (fun d' => decide (1 < dayCount rows d')) l1 e l2 [] hnotin
    rw [generate_run_names, hrows, hlk]
    have hm : decide (1 < dayCount rows e.day) = true := by
      rw [hed]
      simpa using hd
    simp only [hm, if_true]
    have h0 : lookupCount [] e.day = 0 := rfl
    have hcnt : dayCount l1 e.day = pre.length := by
      rw [hed]
      exact hlen
    rw [h0, hcnt, hed]
    norm_num

/-- C8 witness: with two runs on one date and a lone run on another, the
lone date keeps the bare date label on a concrete frame. -/
theorem C8_run_names_witness :
    lookupName (generate_run_names [⟨1, 10, 5⟩, ⟨2, 10, 3⟩, ⟨3, 11, 0⟩]) 3
      = some (.bare 11) :=
  (C8_run_names [⟨1, 10, 5⟩, ⟨2, 10, 3⟩, ⟨3, 11, 0⟩] (by decide)).2.1
    ⟨3, 11, 0⟩ (by decide) (by decide)

/-! ## C6: the concrete as-of join of key 0.25 -/

/-- C6 counterexample: on the series [(0, 0.0), (10, 0.5), (20, 1.0)] the
key 0.25 is on the grid but is answered with elapsed time 10, not the 20
the claim names — the first sample with distance at least 0.25 is
(10, 0.5). -/
theorem C6_key_quarter_not_twenty :
    (1/4 : ℚ) ∈ distKeys [⟨0, 0⟩, ⟨10, 1/2⟩, ⟨20, 1⟩] ∧
    firstTimeAtOrBeyond [⟨0, 0⟩, ⟨10, 1/2⟩, ⟨20, 1⟩] (1/4) ≠ some 20 := by
  have h1 : maxDistance [(⟨0, 0⟩ : Sample), ⟨10, 1/2⟩, ⟨20, 1⟩] = 1 := by
    rw [maxDistance_cons]; simp; norm_num [max_def]
  have h2 : truncInt ((1 : ℚ) * 100) = 100 := by norm_num [truncInt]
  have h3 : firstTimeAtOrBeyond [(⟨0, 0⟩ : Sample), ⟨10, 1/2⟩, ⟨20, 1⟩] (1/4) = some 10 := by
    norm_num [firstTimeAtOrBeyond, List.find?]
  constructor
  · simp only [distKeys, h1, h2]
    refine List.mem_map.mpr ⟨25, ?_, by norm_num⟩
    simp [List.mem_range]
  · rw [h3]
    simp

/-- C6 amended: on the series [(0, 0.0), (10, 0.5), (20, 1.0)] the grid key
0.25 maps to elapsed time 10 via the forward as-of join: the first sample
whose distance reaches 0.25 is (10, 0.5), with exact as-of semantics and
no interpolation. -/
theorem C6_key_quarter_maps_to_ten :
    (1/4 : ℚ) ∈ distKeys [⟨0, 0⟩, ⟨10, 1/2⟩, ⟨20, 1⟩] ∧
    firstTimeAtOrBeyond [⟨0, 0⟩, ⟨10, 1/2⟩, ⟨20, 1⟩] (1/4) = some 10 ∧
    ((1/4 : ℚ), some (10 : ℤ)) ∈ distResample [⟨0, 0⟩, ⟨10, 1/2⟩, ⟨20, 1⟩] := by
  have h1 : maxDistance [(⟨0, 0⟩ : Sample), ⟨10, 1/2⟩, ⟨20, 1⟩] = 1 := by
    rw [maxDistance_cons]; simp; norm_num [max_def]
  have h2 : truncInt ((1 : ℚ) * 100) = 100 := by norm_num [truncInt]
  have h3 : firstTimeAtOrBeyond [(⟨0, 0⟩ : Sample), ⟨10, 1/2⟩, ⟨20, 1⟩] (1/4) = some 10 := by
    norm_num [firstTimeAtOrBeyond, List.find?]
  have hmem : (1/4 : ℚ) ∈ distKeys [(⟨0, 0⟩ : Sample), ⟨10, 1/2⟩, ⟨20, 1⟩] := by
    simp only [distKeys, h1, h2]
    refine List.mem_map.mpr ⟨25, ?_, by norm_num⟩
    simp [List.mem_range]
  refine ⟨hmem, h3, ?_⟩
  exact List.mem_map.mpr ⟨1/4, hmem, by rw [h3]⟩
